import Mathlib

/-!
Verification of the knotshorts summarizer servers.

The repository contains three JavaScript server sources (`summarizer-server.js`
and two further variants, here called `part_000` and `part_001`), all built
around the same summarization pipeline: whitespace normalization, word
counting and hard trimming, marker stripping, a bounded expansion-retry loop,
an insertion-ordered cache with TTL and recency refresh, and in-flight
de-duplication of concurrent identical requests.

Strings are modelled as `List Char` (`JSStr`).  JavaScript's `\s` character
class is modelled by the ASCII whitespace characters (space, tab, newline,
carriage return, vertical tab, form feed); the Unicode space characters that
JS additionally includes behave identically in every property proved here.
-/

namespace KnotShorts

/-- A JavaScript string, modelled as its list of characters. -/
abbrev JSStr := List Char

/-- The whitespace characters matched by the JS regex class `\s`
(restricted to ASCII, see the module docstring). -/
def isWsChar (c : Char) : Bool :=
  c == ' ' || c == '\t' || c == '\n' || c == '\r' || c == '\x0b' || c == '\x0c'

/-- Models `s.split(/\s+/).filter(Boolean)`: splitting on every whitespace
character and dropping empty fields yields exactly the maximal runs of
non-whitespace characters, which is also what splitting on whitespace *runs*
followed by `filter(Boolean)` yields. -/
def splitWsFilter (s : JSStr) : List JSStr :=
  (List.splitOnP isWsChar s).filter (fun w => !w.isEmpty)

/-- Models `Array.prototype.join(sep)`: `[].join(sep) = ''`,
`[w].join(sep) = w`, and otherwise the pieces interleaved with `sep`. -/
def joinSep (sep : JSStr) : List JSStr → JSStr
  | [] => []
  | [w] => w
  | w :: x :: ws => w ++ sep ++ joinSep sep (x :: ws)

/-- Models `normalizeWhitespace` of all three server variants.  Each variant
replaces every whitespace run by a single space and trims the ends:
* `summarizer-server.js` / `part_001`: `replace(/[ \t\r\f\v]+/g,' ')` then
  `replace(/\s*\n+\s*/g,' ')` then `trim()` — a run without `\n` is collapsed
  by the first replace, a run containing `\n` by the second;
* `part_000` (first server): `replace(/\s+/g,' ').trim()`;
* `part_000` (second server): `replace(/[\r\n]+/g,' ')` then
  `replace(/[ \t\f\v]+/g,' ')` then `trim()`.
All three therefore equal the whitespace-free word tokens re-joined by single
spaces, which is the form used here. -/
def normalizeWhitespace (s : JSStr) : JSStr :=
  joinSep [' '] (splitWsFilter s)

/-- Models `countWords(s)`:
`normalizeWhitespace(s).split(/\s+/).filter(Boolean).length`. -/
def countWords (s : JSStr) : Nat :=
  (splitWsFilter (normalizeWhitespace s)).length

/-- Models `hardTrimToMaxWords(s, max)`: split the normalized string into
word tokens, keep at most `max` of them, and re-join with single spaces. -/
def hardTrimToMaxWords (s : JSStr) (max : Nat) : JSStr :=
  let words := splitWsFilter (normalizeWhitespace s)
  if words.length ≤ max then joinSep [' '] words
  else joinSep [' '] (words.take max)

/-- Models `String.prototype.split(c)` for a single-character separator:
every occurrence of `c` separates fields, empty fields are kept, and the
empty string splits to `['']`. -/
def jsSplitChar (c : Char) (s : JSStr) : List JSStr :=
  List.splitOnP (fun a => a == c) s

/-- Models `trimToWords(text, maxWords)` of `part_000`'s first server:
`normalizeWhitespace(text).split(' ').slice(0, maxWords).join(' ')`. -/
def trimToWords (text : JSStr) (maxWords : Nat) : JSStr :=
  let words := jsSplitChar ' ' (normalizeWhitespace text)
  joinSep [' '] (words.take maxWords)

section SplitLemmas

/-- Every field produced by `splitOnP p` consists of characters on which `p`
is false. -/
theorem splitOnP_mem_not (p : Char → Bool) :
    ∀ (l : JSStr), ∀ x ∈ List.splitOnP p l, ∀ c ∈ x, p c = false := by
  intro l
  induction l with
  | nil =>
    intro x hx c hc
    simp only [List.splitOnP_nil, List.mem_singleton] at hx
    subst hx
    simp at hc
  | cons a l ih =>
    intro x hx c hc
    rw [List.splitOnP_cons] at hx
    by_cases hpa : p a
    · rw [if_pos hpa] at hx
      rcases List.mem_cons.mp hx with h | h
      · subst h; simp at hc
      · exact ih x h c hc
    · rw [if_neg hpa] at hx
      rcases hS : List.splitOnP p l with _ | ⟨s, S⟩
      · exact absurd hS (List.splitOnP_ne_nil p l)
      · rw [hS] at hx
        simp only [List.modifyHead] at hx
        rcases List.mem_cons.mp hx with h | h
        · subst h
          rcases List.mem_cons.mp hc with h' | h'
          · subst h'; exact eq_false_of_ne_true hpa
          · refine ih s ?_ c h'
            rw [hS]; exact List.mem_cons_self _ _
        · refine ih x ?_ c hc
          rw [hS]; exact List.mem_cons_of_mem _ h

/-- Splitting a `sep`-join of separator-free fields recovers the fields. -/
theorem splitOnP_joinSep (p : Char → Bool) (x : Char) (hx : p x = true) :
    ∀ (ws : List JSStr), ws ≠ [] → (∀ w ∈ ws, ∀ c ∈ w, p c = false) →
      List.splitOnP p (joinSep [x] ws) = ws := by
  intro ws
  induction ws with
  | nil => intro h; exact absurd rfl h
  | cons w ws ih =>
    intro _ hfree
    cases ws with
    | nil =>
      have hw : ∀ c ∈ w, ¬ p c := by
        intro c hc
        simp [hfree w (List.mem_cons_self _ _) c hc]
      simpa [joinSep] using List.splitOnP_eq_single p w hw
    | cons w' ws' =>
      have hw : ∀ c ∈ w, ¬ p c := by
        intro c hc
        simp [hfree w (List.mem_cons_self _ _) c hc]
      have hjoin : joinSep [x] (w :: w' :: ws') = w ++ x :: joinSep [x] (w' :: ws') := by
        simp [joinSep]
      rw [hjoin, List.splitOnP_first p w hw x hx]
      have := ih (by simp) (fun a ha c hc => hfree a (List.mem_cons_of_mem _ ha) c hc)
      rw [this]

/-- Every token produced by `splitWsFilter` is nonempty. -/
theorem splitWsFilter_ne_nil (s : JSStr) : ∀ w ∈ splitWsFilter s, w ≠ [] := by
  intro w hw
  have := (List.mem_filter.mp hw).2
  simpa [List.isEmpty_iff] using this

/-- Every token produced by `splitWsFilter` is whitespace-free. -/
theorem splitWsFilter_wsFree (s : JSStr) :
    ∀ w ∈ splitWsFilter s, ∀ c ∈ w, isWsChar c = false := by
  intro w hw
  exact splitOnP_mem_not isWsChar s w (List.mem_filter.mp hw).1

/-- `splitWsFilter` recovers a list of nonempty whitespace-free tokens from
their single-space join. -/
theorem splitWsFilter_joinSep (ws : List JSStr)
    (h1 : ∀ w ∈ ws, w ≠ []) (h2 : ∀ w ∈ ws, ∀ c ∈ w, isWsChar c = false) :
    splitWsFilter (joinSep [' '] ws) = ws := by
  cases ws with
  | nil => simp [joinSep, splitWsFilter]
  | cons w ws' =>
    unfold splitWsFilter
    rw [splitOnP_joinSep isWsChar ' ' (by simp [isWsChar]) (w :: ws') (by simp) h2]
    refine List.filter_eq_self.mpr ?_
    intro a ha
    simpa [List.isEmpty_iff] using h1 a ha

/-- Normalization does not change the word tokens. -/
theorem splitWsFilter_normalize (s : JSStr) :
    splitWsFilter (normalizeWhitespace s) = splitWsFilter s := by
  unfold normalizeWhitespace
  exact splitWsFilter_joinSep _ (splitWsFilter_ne_nil s) (splitWsFilter_wsFree s)

/-- The word count of a single-space join of nonempty whitespace-free tokens
is the number of tokens. -/
theorem countWords_joinSep (ws : List JSStr)
    (h1 : ∀ w ∈ ws, w ≠ []) (h2 : ∀ w ∈ ws, ∀ c ∈ w, isWsChar c = false) :
    countWords (joinSep [' '] ws) = ws.length := by
  unfold countWords
  rw [splitWsFilter_normalize, splitWsFilter_joinSep ws h1 h2]

/-- Splitting the normalized string on single spaces yields the word tokens,
except that a fully-whitespace input yields the single empty field that JS
`''.split(' ')` produces. -/
theorem jsSplitChar_normalize (t : JSStr) :
    jsSplitChar ' ' (normalizeWhitespace t) =
      if splitWsFilter t = [] then [[]] else splitWsFilter t := by
  unfold jsSplitChar normalizeWhitespace
  rcases hws : splitWsFilter t with _ | ⟨w, ws'⟩
  · simp [joinSep]
  · rw [if_neg (by simp)]
    refine splitOnP_joinSep (fun a => a == ' ') ' ' (by simp) (w :: ws') (by simp) ?_
    intro a ha c hc
    have := splitWsFilter_wsFree t a (hws ▸ ha) c hc
    have hne : c ≠ ' ' := by
      intro h
      rw [h] at this
      simp [isWsChar] at this
    simp [hne]

end SplitLemmas

/-- Claim C4: for every input string and every natural bound `max`, the word
count of the hard-trimmed string is at most `max`.  This holds both for
`hardTrimToMaxWords` (`summarizer-server.js` lines 111–119, `part_001`
lines 64–72) and for `trimToWords` (`part_000` lines 25–28). -/
theorem countWords_trim_le (text : JSStr) (max : Nat) :
    countWords (hardTrimToMaxWords text max) ≤ max ∧
    countWords (trimToWords text max) ≤ max := by
  constructor
  · unfold hardTrimToMaxWords
    by_cases h : (splitWsFilter (normalizeWhitespace text)).length ≤ max
    · rw [if_pos h]
      rw [countWords_joinSep _ (splitWsFilter_ne_nil _) (splitWsFilter_wsFree _)]
      exact h
    · rw [if_neg h]
      rw [countWords_joinSep _
        (fun w hw => splitWsFilter_ne_nil _ w (List.take_subset _ _ hw))
        (fun w hw => splitWsFilter_wsFree _ w (List.take_subset _ _ hw))]
      exact le_trans (List.length_take_le _ _) (le_refl _)
  · unfold trimToWords
    rw [jsSplitChar_normalize]
    rcases hws : splitWsFilter text with _ | ⟨w, ws'⟩
    · rw [if_pos rfl]
      show countWords (joinSep [' '] (List.take max [[]])) ≤ max
      cases max with
      | zero => simp [joinSep, countWords, normalizeWhitespace, splitWsFilter]
      | succ n =>
        have : List.take (n + 1) [([] : JSStr)] = [[]] := by simp
        rw [this]
        have hj : joinSep [' '] [([] : JSStr)] = [] := rfl
        rw [hj]
        have hc : countWords [] = 0 := rfl
        rw [hc]
        exact Nat.zero_le _
    · rw [if_neg (by simp)]
      show countWords (joinSep [' '] (List.take max (w :: ws'))) ≤ max
      rw [countWords_joinSep _
        (fun a ha => splitWsFilter_ne_nil text a (hws ▸ List.take_subset _ _ ha))
        (fun a ha => splitWsFilter_wsFree text a (hws ▸ List.take_subset _ _ ha))]
      exact le_trans (List.length_take_le _ _) (le_refl _)

/-- Models the chunking loop of `splitIntoLinesByWords`:
`for (let i = 0; i < words.length; i += chunkSize)
   chunks.push(words.slice(i, i + chunkSize).join(' '))`.
The fuel argument is instantiated with `words.length`, which bounds the
number of loop iterations whenever `chunkSize ≥ 1` (always the case in the
caller, where `words` is nonempty). -/
def chunkJoinAux (chunkSize : Nat) : Nat → List JSStr → List JSStr
  | 0, _ => []
  | _ + 1, [] => []
  | fuel + 1, w :: ws =>
    joinSep [' '] ((w :: ws).take chunkSize) ::
      chunkJoinAux chunkSize fuel ((w :: ws).drop chunkSize)

/-- Models `splitIntoLinesByWords(text, targetLines)` of `part_000`
(lines 30–42): split the normalized text on single spaces, compute
`chunkSize = Math.ceil(words.length / Math.max(1, targetLines))`, group the
words into chunks of that size and join the chunks with newlines.  Note that
in JS `''.split(' ')` is `['']`, so `words.length === 0` never holds and the
early-return branch is dead code. -/
def splitIntoLinesByWords (text : JSStr) (targetLines : Nat) : JSStr :=
  let words := jsSplitChar ' ' (normalizeWhitespace text)
  if words.length = 0 then []
  else
    let lines := Nat.max 1 targetLines
    let chunkSize := (words.length + lines - 1) / lines
    joinSep ['\n'] (chunkJoinAux chunkSize words.length words)

/-- The number of newline-separated segments of a string, as observed by
`summary.split('\n').length` in the source's logging. -/
def lineCountJs (s : JSStr) : Nat := (jsSplitChar '\n' s).length

section ChunkLemmas

/-- The chunking loop produces `⌈length / chunkSize⌉` chunks when given
enough fuel and a positive chunk size. -/
theorem chunkJoinAux_length (cs : Nat) (hcs : 0 < cs) :
    ∀ (fuel : Nat) (ws : List JSStr), ws.length ≤ fuel →
      (chunkJoinAux cs fuel ws).length = (ws.length + cs - 1) / cs := by
  intro fuel
  induction fuel with
  | zero =>
    intro ws hws
    have : ws = [] := List.length_eq_zero.mp (Nat.le_zero.mp hws)
    subst this
    simp [chunkJoinAux, Nat.div_eq_of_lt (Nat.sub_lt hcs Nat.one_pos)]
  | succ fuel ih =>
    intro ws hws
    cases ws with
    | nil => simp [chunkJoinAux, Nat.div_eq_of_lt (Nat.sub_lt hcs Nat.one_pos)]
    | cons w ws' =>
      have hlen : (w :: ws').length = ws'.length + 1 := by simp
      have hdroplen : ((w :: ws').drop cs).length = (w :: ws').length - cs := by
        simp
      have hfuel : ((w :: ws').drop cs).length ≤ fuel := by
        rw [hdroplen, hlen]
        omega
      have hrec := ih ((w :: ws').drop cs) hfuel
      show (joinSep [' '] ((w :: ws').take cs) ::
        chunkJoinAux cs fuel ((w :: ws').drop cs)).length =
        ((w :: ws').length + cs - 1) / cs
      rw [List.length_cons, hrec, hdroplen, hlen]
      set m := ws'.length + 1 with hm
      have hm1 : 1 ≤ m := by omega
      by_cases hle : m ≤ cs
      · have h0 : m - cs = 0 := by omega
        rw [h0]
        have hz : (0 + cs - 1) / cs = 0 := by
          exact Nat.div_eq_of_lt (by omega)
        rw [hz]
        have hlo : 1 ≤ (m + cs - 1) / cs := by
          rw [Nat.le_div_iff_mul_le hcs]
          omega
        have hhi : (m + cs - 1) / cs < 2 := by
          rw [Nat.div_lt_iff_lt_mul hcs]
          omega
        omega
      · have harith : m + cs - 1 = (m - cs + cs - 1) + cs := by omega
        rw [harith, Nat.add_div_right _ hcs]

/-- Any character of a `joinSep` join lies in the separator or in one of
the pieces. -/
theorem mem_joinSep (sep : JSStr) :
    ∀ (ws : List JSStr), ∀ c ∈ joinSep sep ws, c ∈ sep ∨ ∃ w ∈ ws, c ∈ w := by
  intro ws
  induction ws with
  | nil => intro c hc; simp [joinSep] at hc
  | cons w ws ih =>
    intro c hc
    cases ws with
    | nil =>
      right
      exact ⟨w, List.mem_cons_self _ _, by simpa [joinSep] using hc⟩
    | cons x t =>
      have : c ∈ w ++ sep ++ joinSep sep (x :: t) := by simpa [joinSep] using hc
      rcases List.mem_append.mp this with h | h
      · rcases List.mem_append.mp h with h' | h'
        · exact Or.inr ⟨w, List.mem_cons_self _ _, h'⟩
        · exact Or.inl h'
      · rcases ih c h with h' | ⟨w', hw', hc'⟩
        · exact Or.inl h'
        · exact Or.inr ⟨w', List.mem_cons_of_mem _ hw', hc'⟩

/-- Any character of any chunk produced by the chunking loop is a space or a
character of one of the words. -/
theorem chunkJoinAux_mem (cs : Nat) :
    ∀ (fuel : Nat) (ws : List JSStr), ∀ ch ∈ chunkJoinAux cs fuel ws,
      ∀ c ∈ ch, c = ' ' ∨ ∃ w ∈ ws, c ∈ w := by
  intro fuel
  induction fuel with
  | zero => intro ws ch hch; simp [chunkJoinAux] at hch
  | succ fuel ih =>
    intro ws ch hch c hc
    cases ws with
    | nil => simp [chunkJoinAux] at hch
    | cons w ws' =>
      rcases List.mem_cons.mp hch with h | h
      · subst h
        rcases mem_joinSep [' '] _ c hc with h' | ⟨w', hw', hc'⟩
        · exact Or.inl (by simpa using h')
        · exact Or.inr ⟨w', List.take_subset _ _ hw', hc'⟩
      · rcases ih _ ch h c hc with h' | ⟨w', hw', hc'⟩
        · exact Or.inl h'
        · exact Or.inr ⟨w', List.drop_subset _ _ hw', hc'⟩

/-- The chunking loop yields at least one chunk on a nonempty word list. -/
theorem chunkJoinAux_ne_nil (cs fuel : Nat) (w : JSStr) (ws : List JSStr)
    (hfuel : 0 < fuel) : chunkJoinAux cs fuel (w :: ws) ≠ [] := by
  cases fuel with
  | zero => exact absurd hfuel (by omega)
  | succ n => simp [chunkJoinAux]

/-- Splitting a newline-join of newline-free chunks counts the chunks. -/
theorem lineCountJs_joinSep (chunks : List JSStr) (hne : chunks ≠ [])
    (hfree : ∀ ch ∈ chunks, ∀ c ∈ ch, (c == '\n') = false) :
    lineCountJs (joinSep ['\n'] chunks) = chunks.length := by
  unfold lineCountJs jsSplitChar
  rw [splitOnP_joinSep (fun a => a == '\n') '\n' (by simp) chunks hne hfree]

end ChunkLemmas

/-- `splitIntoLinesByWords` always takes its chunking branch: in JS,
`''.split(' ')` is `['']`, so the word array is never empty and the
`words.length === 0` early return is dead. -/
theorem splitIntoLinesByWords_eq (text : JSStr) (n : Nat) :
    splitIntoLinesByWords text n =
      joinSep ['\n']
        (chunkJoinAux
          (((jsSplitChar ' ' (normalizeWhitespace text)).length + Nat.max 1 n - 1) /
            Nat.max 1 n)
          (jsSplitChar ' ' (normalizeWhitespace text)).length
          (jsSplitChar ' ' (normalizeWhitespace text))) := by
  have hne : jsSplitChar ' ' (normalizeWhitespace text) ≠ [] :=
    List.splitOnP_ne_nil _ _
  have hlen : ¬ (jsSplitChar ' ' (normalizeWhitespace text)).length = 0 := by
    simpa [List.length_eq_zero] using hne
  simp only [splitIntoLinesByWords]
  rw [if_neg hlen]

/-- Concrete three-word input used against claim C1. -/
def textC1 : JSStr := "a b c".toList

/-- Claim C1 is false as stated: the three-word text `"a b c"` reflowed to a
target of 8 lines yields 3 newline-separated segments, not 8, and no empty
trailing segments are produced. -/
theorem splitIntoLines_claimC1_false :
    lineCountJs (splitIntoLinesByWords textC1 8) = 3 ∧
    ¬ lineCountJs (splitIntoLinesByWords textC1 8) = 8 := by
  decide

/-- Claim C1, amended: for a positive target `n`, `splitIntoLinesByWords`
yields between 1 and `n` newline-separated segments (never more, but
possibly fewer than `n`); when the text has fewer than `n` words the segment
count equals the word count (or 1 for a zero-word text, whose single segment
is empty) — trailing empty segments are never padded in. -/
theorem splitIntoLines_lineCount (text : JSStr) (n : Nat) (hn : 0 < n) :
    1 ≤ lineCountJs (splitIntoLinesByWords text n) ∧
    lineCountJs (splitIntoLinesByWords text n) ≤ n ∧
    (countWords text < n →
      lineCountJs (splitIntoLinesByWords text n) = Nat.max 1 (countWords text)) := by
  have hmax : Nat.max 1 n = n := Nat.max_eq_right hn
  have hcw : countWords text = (splitWsFilter text).length := by
    unfold countWords
    rw [splitWsFilter_normalize]
  rcases hws : splitWsFilter text with _ | ⟨w0, ws0⟩
  · -- zero-word input: one empty segment
    have hW : jsSplitChar ' ' (normalizeWhitespace text) = [[]] := by
      rw [jsSplitChar_normalize, hws, if_pos rfl]
    have hLC : lineCountJs (splitIntoLinesByWords text n) = 1 := by
      rw [splitIntoLinesByWords_eq, hW, hmax]
      have harith : (([([] : JSStr)]).length + n - 1) / n = 1 := by
        have h1 : ([([] : JSStr)]).length + n - 1 = n := by simp
        rw [h1, Nat.div_self hn]
      rw [harith]
      rfl
    refine ⟨by rw [hLC], by rw [hLC]; exact hn, fun _ => ?_⟩
    rw [hLC, hcw, hws]
    rfl
  · -- at least one word
    have hW : jsSplitChar ' ' (normalizeWhitespace text) = w0 :: ws0 := by
      rw [jsSplitChar_normalize, hws, if_neg (by simp)]
    have hm1 : 1 ≤ (w0 :: ws0).length := by simp
    have hcs : 0 < ((w0 :: ws0).length + n - 1) / n := by
      rw [Nat.lt_iff_add_one_le, Nat.le_div_iff_mul_le hn]
      omega
    have hfree : ∀ ch ∈ chunkJoinAux (((w0 :: ws0).length + n - 1) / n)
        (w0 :: ws0).length (w0 :: ws0), ∀ c ∈ ch, (c == '\n') = false := by
      intro ch hch c hc
      rcases chunkJoinAux_mem _ _ _ ch hch c hc with h | ⟨w, hw, hcw'⟩
      · subst h; decide
      · have hwf := splitWsFilter_wsFree text w (hws ▸ hw) c hcw'
        have : c ≠ '\n' := by
          intro h
          rw [h] at hwf
          simp [isWsChar] at hwf
        simp [this]
    have hLC : lineCountJs (splitIntoLinesByWords text n) =
        ((w0 :: ws0).length + ((w0 :: ws0).length + n - 1) / n - 1) /
          (((w0 :: ws0).length + n - 1) / n) := by
      rw [splitIntoLinesByWords_eq, hW, hmax]
      rw [lineCountJs_joinSep _ (chunkJoinAux_ne_nil _ _ _ _ (by simp)) hfree]
      exact chunkJoinAux_length _ hcs _ _ (le_refl _)
    rw [hLC]
    set m := (w0 :: ws0).length with hmdef
    set cs := (m + n - 1) / n with hcsdef
    have hk1 : 1 ≤ (m + cs - 1) / cs := by
      rw [Nat.le_div_iff_mul_le hcs]
      omega
    have hmcs : m + n - 1 < cs * n + n := by
      have h := Nat.lt_div_mul_add (a := m + n - 1) hn
      rw [← hcsdef] at h
      exact h
    have hmle : m ≤ cs * n := by omega
    have hkn : (m + cs - 1) / cs ≤ n := by
      rw [← Nat.lt_succ_iff, Nat.div_lt_iff_lt_mul hcs]
      have hsm : (n + 1) * cs = cs * n + cs := by
        rw [Nat.succ_mul, Nat.mul_comm]
      rw [hsm]
      omega
    refine ⟨hk1, hkn, fun hlt => ?_⟩
    have hcwm : countWords text = m := by rw [hcw, hws]
    rw [hcwm] at hlt ⊢
    have hcs2 : cs < 2 := by
      rw [hcsdef, Nat.div_lt_iff_lt_mul hn]
      omega
    have hcseq : cs = 1 := by omega
    rw [hcseq]
    have hmm : (m + 1 - 1) / 1 = m := by simp
    rw [hmm]
    exact (Nat.max_eq_right hm1).symm

/-- Witness for the amended claim C1 at the concrete input `"a b c"`, `n = 8`. -/
theorem splitIntoLines_lineCount_witness :
    1 ≤ lineCountJs (splitIntoLinesByWords textC1 8) ∧
    lineCountJs (splitIntoLinesByWords textC1 8) ≤ 8 ∧
    (countWords textC1 < 8 →
      lineCountJs (splitIntoLinesByWords textC1 8) = Nat.max 1 (countWords textC1)) :=
  splitIntoLines_lineCount textC1 8 (by decide)

/-!
## The in-memory cache

`part_001` (lines 81–103) and `part_000` (lines 163–186) both keep a JS
`Map` from fingerprint keys to `{summary/value, ts/t}` records.  A JS `Map`
iterates in insertion order, and `set` on an existing key updates the value
in place without moving the entry, so the map is modelled as an association
list in insertion order (head = oldest).  Keys are kept unique, which the
`Map` type guarantees.
-/

/-- A cache record `{ summary, ts }` (part_001) / `{ value, t }` (part_000). -/
structure CacheEntry where
  summary : JSStr
  ts : Nat
deriving DecidableEq

/-- The cache `Map`, as an insertion-ordered association list. -/
abbrev CacheMap := List (JSStr × CacheEntry)

/-- Models `Map.prototype.get`. -/
def mapFind (k : JSStr) (m : CacheMap) : Option CacheEntry :=
  (m.find? (fun p => p.1 == k)).map (fun p => p.2)

/-- Models `Map.prototype.delete`: removes the entry with key `k` (keys are
unique in a JS `Map`, so filtering removes exactly that entry). -/
def mapErase (k : JSStr) (m : CacheMap) : CacheMap :=
  m.filter (fun p => !(p.1 == k))

/-- Models `Map.prototype.set`: an existing key is updated in place and
keeps its position in the iteration order; a new key is appended at the
most-recent end. -/
def mapSet (k : JSStr) (v : CacheEntry) (m : CacheMap) : CacheMap :=
  if (m.find? (fun p => p.1 == k)).isSome then
    m.map (fun p => if p.1 == k then (k, v) else p)
  else m ++ [(k, v)]

/-- Models `cacheGet(key)` of `part_001` (lines 84–95) and the textually
identical `_cacheGet(key)` of `part_000` (lines 168–179): a missing key is a
miss; an entry older than the TTL is deleted and reported as a miss; a fresh
entry is re-inserted at the most-recent position (recency refresh) and its
summary returned.  `nowMs` models `Date.now()`. -/
def cacheGet (ttl nowMs : Nat) (k : JSStr) (m : CacheMap) :
    Option JSStr × CacheMap :=
  match mapFind k m with
  | none => (none, m)
  | some hit =>
    if ttl < nowMs - hit.ts then (none, mapErase k m)
    else (some hit.summary, mapSet k hit (mapErase k m))

/-- Models `cacheSet(key, summary)` of `part_001` (lines 97–103): insert
first, then, if the size exceeds the capacity, delete the first (oldest)
key.  The source guards the deletion with `if (first)`, which is also false
for the empty-string key (JS falsiness), modelled faithfully here. -/
def cacheSet (cap nowMs : Nat) (k : JSStr) (summary : JSStr) (m : CacheMap) :
    CacheMap :=
  let m1 := mapSet k ⟨summary, nowMs⟩ m
  if cap < m1.length then
    match m1.head? with
    | some (k0, _) => if k0.isEmpty then m1 else mapErase k0 m1
    | none => m1
  else m1

/-- Models `_cacheSet(key, value)` of `part_000` (lines 180–186): if the
cache is at (or above) capacity, delete the first (oldest) key — again
guarded by JS truthiness — and then insert. -/
def cacheSetOld (cap nowMs : Nat) (k : JSStr) (value : JSStr) (m : CacheMap) :
    CacheMap :=
  let m1 :=
    if cap ≤ m.length then
      match m.head? with
      | some (k0, _) => if k0.isEmpty then m else mapErase k0 m
      | none => m
    else m
  mapSet k ⟨value, nowMs⟩ m1

section CacheLemmas

/-- `mapFind` misses exactly when no entry carries the key. -/
theorem mapFind_eq_none_iff (k : JSStr) (m : CacheMap) :
    mapFind k m = none ↔ ∀ p ∈ m, ¬ p.1 = k := by
  unfold mapFind
  rw [Option.map_eq_none', List.find?_eq_none]
  constructor
  · intro h p hp
    have := h p hp
    simpa using this
  · intro h p hp
    simpa using h p hp

/-- Setting a fresh key appends it at the most-recent end. -/
theorem mapSet_of_find_none (k : JSStr) (v : CacheEntry) (m : CacheMap)
    (h : mapFind k m = none) : mapSet k v m = m ++ [(k, v)] := by
  unfold mapSet
  have hf : m.find? (fun p => p.1 == k) = none := by
    unfold mapFind at h
    exact Option.map_eq_none'.mp h
  rw [hf]
  simp

/-- Erasing a key that is absent leaves the map unchanged. -/
theorem mapErase_of_absent (k : JSStr) (m : CacheMap)
    (h : ∀ p ∈ m, ¬ p.1 = k) : mapErase k m = m := by
  unfold mapErase
  refine List.filter_eq_self.mpr ?_
  intro p hp
  simpa using h p hp

/-- After erasing a key it is no longer found. -/
theorem mapFind_mapErase_self (k : JSStr) (m : CacheMap) :
    mapFind k (mapErase k m) = none := by
  rw [mapFind_eq_none_iff]
  intro p hp
  have := List.of_mem_filter hp
  simpa using this

/-- A present pair makes `mapFind` hit. -/
theorem mapFind_ne_none_of_mem (k : JSStr) (e : CacheEntry) (m : CacheMap)
    (h : (k, e) ∈ m) : mapFind k m ≠ none := by
  unfold mapFind
  intro hc
  have := Option.map_eq_none'.mp hc
  rw [List.find?_eq_none] at this
  exact absurd (by simp : ((k, e).1 == k) = true) (by simpa using this (k, e) h)

/-- A `mapFind` hit comes from a present pair with that key. -/
theorem mem_of_mapFind_some (k : JSStr) (e : CacheEntry) (m : CacheMap)
    (h : mapFind k m = some e) : (k, e) ∈ m := by
  unfold mapFind at h
  rcases Option.map_eq_some'.mp h with ⟨p, hp, rfl⟩
  have hmem := List.mem_of_find?_eq_some hp
  have hkey : p.1 = k := by
    have := List.find?_some hp
    simpa using this
  have : p = (k, p.2) := by
    cases p
    simp_all
  rw [this] at hmem
  exact hmem

/-- Erasing a present key from a map with unique keys shortens it by one. -/
theorem mapErase_length (k : JSStr) (m : CacheMap)
    (hnd : (m.map Prod.fst).Nodup) (h : mapFind k m ≠ none) :
    (mapErase k m).length + 1 = m.length := by
  induction m with
  | nil => simp [mapFind] at h
  | cons p rest ih =>
    rw [List.map_cons, List.nodup_cons] at hnd
    by_cases hk : p.1 = k
    · have herase : mapErase k (p :: rest) = rest := by
        unfold mapErase
        rw [List.filter_cons]
        have : (!(p.1 == k)) = false := by simp [hk]
        rw [this]
        simp only [mapErase] at *
        refine List.filter_eq_self.mpr ?_
        intro q hq
        have : q.1 ≠ k := by
          intro hqk
          exact hnd.1 (hk ▸ hqk ▸ List.mem_map_of_mem Prod.fst hq)
        simpa using this
      rw [herase]
      simp
    · have herase : mapErase k (p :: rest) = p :: mapErase k rest := by
        unfold mapErase
        rw [List.filter_cons]
        have : (!(p.1 == k)) = true := by simp [hk]
        rw [this]
        simp
      have hfind : mapFind k rest ≠ none := by
        intro hc
        apply h
        unfold mapFind at hc ⊢
        rw [List.find?_cons]
        have : (p.1 == k) = false := by simp [hk]
        rw [this]
        exact hc
      rw [herase]
      simp only [List.length_cons]
      rw [← ih hnd.2 hfind]

/-- Members of an erased map are members of the original with another key. -/
theorem mem_mapErase (p : JSStr × CacheEntry) (k : JSStr) (m : CacheMap)
    (h : p ∈ mapErase k m) : p ∈ m ∧ ¬ p.1 = k := by
  refine ⟨List.mem_of_mem_filter h, ?_⟩
  have := List.of_mem_filter h
  simpa using this

end CacheLemmas

/-- Claim C6: a `cacheGet` on a stored fingerprint within the TTL returns the
stored summary; past the TTL the entry is treated as absent and removed from
the cache, so the surrounding request handler proceeds as on a miss and runs
the pipeline afresh.  Applies to `cacheGet` of `part_001` (lines 84–95) and
the identical `_cacheGet` of `part_000` (lines 168–179). -/
theorem cacheGet_ttl (ttl nowMs : Nat) (k : JSStr) (m : CacheMap)
    (e : CacheEntry) (hfind : mapFind k m = some e) :
    (nowMs - e.ts ≤ ttl → (cacheGet ttl nowMs k m).1 = some e.summary) ∧
    (ttl < nowMs - e.ts →
      (cacheGet ttl nowMs k m).1 = none ∧
      mapFind k (cacheGet ttl nowMs k m).2 = none) := by
  constructor
  · intro hfresh
    unfold cacheGet
    rw [hfind]
    simp only
    rw [if_neg (by omega)]
  · intro hexp
    unfold cacheGet
    rw [hfind]
    simp only
    rw [if_pos hexp]
    exact ⟨rfl, mapFind_mapErase_self k m⟩

/-- A concrete cache entry used in witnesses. -/
def entEx : CacheEntry := ⟨['s'], 200⟩

/-- Witness for claim C6 on a concrete one-entry cache, covering both the
fresh-read and the expired-read implications. -/
theorem cacheGet_ttl_witness :
    (1000 - entEx.ts ≤ 3600 →
      (cacheGet 3600 1000 ['k'] [(['k'], entEx)]).1 = some entEx.summary) ∧
    (3600 < 1000 - entEx.ts →
      (cacheGet 3600 1000 ['k'] [(['k'], entEx)]).1 = none ∧
      mapFind ['k'] (cacheGet 3600 1000 ['k'] [(['k'], entEx)]).2 = none) :=
  cacheGet_ttl 3600 1000 ['k'] [(['k'], entEx)] entEx (by decide)

/-- Erasing the key of the head entry keeps exactly the tail when the tail
does not repeat the key. -/
theorem mapErase_cons_self (k : JSStr) (e : CacheEntry) (l : CacheMap)
    (h : ∀ p ∈ l, ¬ p.1 = k) : mapErase k ((k, e) :: l) = l := by
  unfold mapErase
  rw [List.filter_cons]
  have hself : (!((k, e).1 == k)) = false := by simp
  rw [hself]
  simp only [Bool.false_eq_true, if_false]
  exact List.filter_eq_self.mpr (fun q hq => by simpa using h q hq)

/-- Claim C5: a put performed when the cache holds `cap`-many entries (with
unique nonempty keys, as sha1 hex fingerprints are) evicts exactly one
entry — the single oldest one, at the head of the insertion order — leaving
the new entry at the tail and the size at the capacity bound; this holds for
`cacheSet` of `part_001` (lines 97–103, insert-then-evict) and `_cacheSet`
of `part_000` (lines 180–186, evict-then-insert).  Moreover an entry
promoted by a fresh cache hit between the two insertions is not the entry
evicted: it is still found after the put. -/
theorem cacheSet_capacity (cap t : Nat) (k' : JSStr) (v : JSStr)
    (m : CacheMap) (hlen : m.length = cap) (hcap : 2 ≤ cap)
    (hk' : mapFind k' m = none)
    (hkeys : ∀ p ∈ m, ¬ p.1.isEmpty = true)
    (hnd : (m.map Prod.fst).Nodup) :
    cacheSet cap t k' v m = m.tail ++ [(k', ⟨v, t⟩)] ∧
    (cacheSet cap t k' v m).length = cap ∧
    cacheSetOld cap t k' v m = m.tail ++ [(k', ⟨v, t⟩)] ∧
    (∀ kh e ttl nw, mapFind kh m = some e → nw - e.ts ≤ ttl →
      mapFind kh (cacheSet cap t k' v (cacheGet ttl nw kh m).2) ≠ none) := by
  rcases m with _ | ⟨⟨k0, e0⟩, rest⟩
  · exfalso
    simp only [List.length_nil] at hlen
    omega
  · have hlen' : rest.length + 1 = cap := by simpa using hlen
    have hk'0 : ¬ k' = k0 := by
      intro h
      exact (mapFind_eq_none_iff k' _).mp hk' (k0, e0) (List.mem_cons_self _ _) h.symm
    have hrestkeys : ∀ q ∈ rest, ¬ q.1 = k0 := by
      intro q hq hq0
      rw [List.map_cons, List.nodup_cons] at hnd
      apply hnd.1
      rw [← hq0]
      exact List.mem_map.mpr ⟨q, hq, rfl⟩
    have h0key : ¬ (k0 : JSStr).isEmpty = true := hkeys (k0, e0) (List.mem_cons_self _ _)
    have htailkeys : ∀ q ∈ rest ++ [(k', (⟨v, t⟩ : CacheEntry))], ¬ q.1 = k0 := by
      intro q hq
      rcases List.mem_append.mp hq with h | h
      · exact hrestkeys q h
      · simp only [List.mem_singleton] at h
        subst h
        exact hk'0
    have hset1 : cacheSet cap t k' v ((k0, e0) :: rest) =
        rest ++ [(k', ⟨v, t⟩)] := by
      unfold cacheSet
      rw [mapSet_of_find_none k' _ _ hk']
      simp only [List.cons_append]
      have hlt : cap < ((k0, e0) :: (rest ++ [(k', (⟨v, t⟩ : CacheEntry))])).length := by
        simp only [List.length_cons, List.length_append, List.length_singleton]
        omega
      rw [if_pos hlt, List.head?_cons]
      simp only
      rw [if_neg h0key]
      exact mapErase_cons_self k0 e0 _ htailkeys
    refine ⟨hset1, ?_, ?_, ?_⟩
    · rw [hset1]
      simp only [List.length_append, List.length_singleton]
      omega
    · unfold cacheSetOld
      rw [if_pos (le_of_eq hlen.symm), List.head?_cons]
      simp only
      rw [if_neg h0key]
      rw [mapErase_cons_self k0 e0 rest hrestkeys]
      refine mapSet_of_find_none k' _ rest ?_
      rw [mapFind_eq_none_iff] at hk' ⊢
      exact fun q hq => hk' q (List.mem_cons_of_mem _ hq)
    · intro kh e ttl nw hhit hfresh
      have hget : (cacheGet ttl nw kh ((k0, e0) :: rest)).2 =
          mapErase kh ((k0, e0) :: rest) ++ [(kh, e)] := by
        unfold cacheGet
        rw [hhit]
        simp only
        rw [if_neg (by omega : ¬ ttl < nw - e.ts)]
        exact mapSet_of_find_none kh e _ (mapFind_mapErase_self kh _)
      have hkhmem : (kh, e) ∈ (k0, e0) :: rest := mem_of_mapFind_some kh e _ hhit
      have hkhk' : ¬ kh = k' := by
        intro h
        exact (mapFind_eq_none_iff k' _).mp hk' (kh, e) hkhmem (by simpa using h)
      have herlen : (mapErase kh ((k0, e0) :: rest)).length + 1 =
          ((k0, e0) :: rest).length :=
        mapErase_length kh _ hnd (by rw [hhit]; simp)
      rw [hget]
      rcases hq : mapErase kh ((k0, e0) :: rest) with _ | ⟨⟨q1, q2⟩, qrest⟩
      · exfalso
        rw [hq] at herlen
        simp only [List.length_nil, List.length_cons] at herlen
        omega
      · have hqmem : ((q1, q2) : JSStr × CacheEntry) ∈ mapErase kh ((k0, e0) :: rest) := by
          rw [hq]
          exact List.mem_cons_self _ _
        have hqpair := mem_mapErase (q1, q2) kh _ hqmem
        have hqkey : ¬ (q1 : JSStr).isEmpty = true := hkeys _ hqpair.1
        have hqkh : ¬ q1 = kh := hqpair.2
        have hfind2 : mapFind k' (((q1, q2) :: qrest) ++ [(kh, e)]) = none := by
          rw [mapFind_eq_none_iff]
          intro r hr
          rcases List.mem_append.mp hr with h | h
          · have hrmem : r ∈ mapErase kh ((k0, e0) :: rest) := by
              rw [hq]; exact h
            exact (mapFind_eq_none_iff k' _).mp hk' r (mem_mapErase r kh _ hrmem).1
          · simp only [List.mem_singleton] at h
            subst h
            exact fun hc => hkhk' hc
        unfold cacheSet
        rw [mapSet_of_find_none k' _ _ hfind2]
        simp only [List.cons_append]
        have hqlen : qrest.length + 1 + 1 = rest.length + 1 := by
          rw [hq] at herlen
          simpa using herlen
        have hlt2 : cap <
            ((q1, q2) :: ((qrest ++ [(kh, e)]) ++ [(k', (⟨v, t⟩ : CacheEntry))])).length := by
          simp only [List.length_cons, List.length_append, List.length_singleton]
          omega
        rw [if_pos hlt2, List.head?_cons]
        simp only
        rw [if_neg hqkey]
        refine mapFind_ne_none_of_mem kh e _ ?_
        refine List.mem_filter.mpr ⟨?_, ?_⟩
        · simp
        · simp only [Bool.not_eq_true']
          simp only [beq_eq_false_iff_ne, ne_eq]
          exact fun hc => hqkh hc.symm

/-- A concrete two-entry cache at capacity 2, used in the C5 witness. -/
def cacheEx : CacheMap := [(['a'], ⟨['x'], 1⟩), (['b'], ⟨['y'], 2⟩)]

/-- Witness for claim C5: a put into the concrete at-capacity cache keeps
the size at the capacity bound. -/
theorem cacheSet_capacity_witness : (cacheSet 2 7 ['c'] ['s'] cacheEx).length = 2 :=
  (cacheSet_capacity 2 7 ['c'] ['s'] cacheEx (by decide) (by decide) (by decide)
    (by decide) (by decide)).2.1

/-!
## In-flight de-duplication (event model)

The `/summarize` route of `part_001` (lines 190–225) runs on Node's
single-threaded event loop: between two `await` points a handler runs
atomically.  For one fingerprint the relevant state is the cache slot, the
in-flight registration, and the number of pipeline invocations.  A request
is modelled in three atomic pieces, exactly following the source:

* `start` — the synchronous prologue: `cacheGet` (hit → respond from cache),
  otherwise `inflight.get(key)`; if absent, invoke the pipeline
  (`summarizeWithOptionalExpand`), counting one invocation, and
  `inflight.set(key, promise)`; then await the shared promise;
* `settle` — the shared upstream promise resolves (with a summary) or
  rejects;
* `finish` — the continuation after `await`: on success
  `inflight.delete(key); cacheSet(key, summary)` and respond; on failure the
  `catch` block runs `inflight.delete(key)` and responds with an error.

The `/summarize/bulk` route (lines 257–275) uses the identical
register/adopt/delete protocol per unique hash.
-/

/-- The two concurrent callers. -/
inductive ReqId
  | A
  | B
deriving DecidableEq

/-- The phase of one request's handler. -/
inductive Phase
  | idle
  | waiting
  | doneOk (s : JSStr)
  | doneErr
deriving DecidableEq

/-- Whether a phase is terminal. -/
def Phase.isDoneB : Phase → Bool
  | .doneOk _ => true
  | .doneErr => true
  | _ => false

/-- Event-loop state projected onto a single fingerprint: its cache slot,
whether a promise is registered in `inflight`, how many pipeline invocations
(`summarizeWithOptionalExpand` calls) have been made, whether and how the
shared promise has settled, and the two handlers' phases. -/
structure LoopSt where
  cache : Option JSStr
  inflight : Bool
  calls : Nat
  settled : Option (Option JSStr)
  phA : Phase
  phB : Phase
deriving DecidableEq

/-- The phase of a given request. -/
def LoopSt.phase (st : LoopSt) : ReqId → Phase
  | .A => st.phA
  | .B => st.phB

/-- Replace the phase of a given request. -/
def LoopSt.setPhase (st : LoopSt) : ReqId → Phase → LoopSt
  | .A, p => { st with phA := p }
  | .B, p => { st with phB := p }

/-- Atomic events of the event loop. -/
inductive Ev
  | start (r : ReqId)
  | settle (v : Option JSStr)
  | finish (r : ReqId)
deriving DecidableEq

/-- One atomic step.  `start` runs the route prologue (cache lookup,
in-flight adopt-or-register, pipeline launch); `settle` resolves or rejects
the single shared promise (possible only once a pipeline call exists);
`finish` runs a waiting handler's continuation once the promise settled:
the success path deletes the in-flight registration and writes the cache,
the failure path only deletes the registration. -/
def stepEv (st : LoopSt) : Ev → LoopSt
  | .start r =>
    if st.phase r = .idle then
      match st.cache with
      | some c => st.setPhase r (.doneOk c)
      | none =>
        if st.inflight then st.setPhase r .waiting
        else { st.setPhase r .waiting with inflight := true, calls := st.calls + 1 }
    else st
  | .settle v =>
    if st.settled = none ∧ 1 ≤ st.calls then { st with settled := some v } else st
  | .finish r =>
    if st.phase r = .waiting then
      match st.settled with
      | some (some s) =>
        { st.setPhase r (.doneOk s) with inflight := false, cache := some s }
      | some none => { st.setPhase r .doneErr with inflight := false }
      | none => st
    else st

/-- Run a schedule of events. -/
def execEvs (evs : List Ev) (st : LoopSt) : LoopSt := evs.foldl stepEv st

/-- The initial state: empty cache slot, no in-flight registration, no
pipeline invocation, promise not settled, both handlers not yet arrived. -/
def initLoopSt : LoopSt :=
  { cache := none, inflight := false, calls := 0, settled := none,
    phA := .idle, phB := .idle }

section InflightLemmas

/-- Invariant once both handlers have passed their prologue: exactly one
pipeline invocation was made, no handler is still unarrived, a successful
terminal phase carries exactly the settled summary, terminal phases imply a
settled promise, and once both handlers are terminal the in-flight
registration has been deleted. -/
def KInv (st : LoopSt) : Prop :=
  st.calls = 1 ∧
  ¬ st.phA = .idle ∧ ¬ st.phB = .idle ∧
  (∀ s, st.phA = .doneOk s → st.settled = some (some s)) ∧
  (∀ s, st.phB = .doneOk s → st.settled = some (some s)) ∧
  (st.phA.isDoneB = true → ¬ st.settled = none) ∧
  (st.phB.isDoneB = true → ¬ st.settled = none) ∧
  (st.phA.isDoneB = true → st.phB.isDoneB = true → st.inflight = false)

/-- Invariant before the shared promise settles: nothing cached, each
handler unarrived or waiting, no pipeline invocation before the first
arrival, and exactly one invocation (with a live in-flight registration)
from the first arrival on. -/
def PreInv (st : LoopSt) : Prop :=
  st.settled = none ∧ st.cache = none ∧
  (st.phA = .idle ∨ st.phA = .waiting) ∧
  (st.phB = .idle ∨ st.phB = .waiting) ∧
  ((st.phA = .idle ∧ st.phB = .idle) → (st.calls = 0 ∧ st.inflight = false)) ∧
  ((st.phA = .waiting ∨ st.phB = .waiting) → (st.calls = 1 ∧ st.inflight = true))

/-- `KInv` is preserved by every event. -/
theorem KInv_step (st : LoopSt) (ev : Ev) (h : KInv st) : KInv (stepEv st ev) := by
  obtain ⟨h1, h2, h3, h4, h5, h6, h7, h8⟩ := h
  cases ev with
  | start r =>
    have hno : stepEv st (.start r) = st := by
      simp only [stepEv]
      rw [if_neg ?_]
      cases r
      · exact h2
      · exact h3
    rw [hno]
    exact ⟨h1, h2, h3, h4, h5, h6, h7, h8⟩
  | settle v =>
    by_cases hg : st.settled = none ∧ 1 ≤ st.calls
    · have hstep : stepEv st (.settle v) = { st with settled := some v } := by
        simp only [stepEv]
        rw [if_pos hg]
      rw [hstep]
      have hnda : ¬ st.phA.isDoneB = true := fun hd => (h6 hd) hg.1
      have hndb : ¬ st.phB.isDoneB = true := fun hd => (h7 hd) hg.1
      refine ⟨h1, h2, h3, ?_, ?_, ?_, ?_, ?_⟩
      · intro s hs
        exact absurd (by rw [hs]; rfl : st.phA.isDoneB = true) hnda
      · intro s hs
        exact absurd (by rw [hs]; rfl : st.phB.isDoneB = true) hndb
      · intro hd
        exact absurd hd hnda
      · intro hd
        exact absurd hd hndb
      · intro hd
        exact absurd hd hnda
    · have hstep : stepEv st (.settle v) = st := by
        simp only [stepEv]
        rw [if_neg hg]
      rw [hstep]
      exact ⟨h1, h2, h3, h4, h5, h6, h7, h8⟩
  | finish r =>
    by_cases hw : st.phase r = .waiting
    · rcases hset : st.settled with _ | ⟨_ | s⟩
      · have hstep : stepEv st (.finish r) = st := by
          simp only [stepEv]
          rw [if_pos hw, hset]
        rw [hstep]
        exact ⟨h1, h2, h3, h4, h5, h6, h7, h8⟩
      · -- rejection: the handler moves to `doneErr` and deletes in-flight
        have hstep : stepEv st (.finish r) =
            { st.setPhase r .doneErr with inflight := false } := by
          simp only [stepEv]
          rw [if_pos hw, hset]
        rw [hstep]
        cases r with
        | A =>
          refine ⟨h1, by simp [LoopSt.setPhase], h3, ?_, ?_, ?_, ?_, ?_⟩
          · intro s hs
            simp [LoopSt.setPhase] at hs
          · intro s hs
            simp [LoopSt.setPhase] at hs
            exact h5 s hs
          · intro _
            simp [LoopSt.setPhase, hset]
          · intro hd
            simp [LoopSt.setPhase, hset]
          · intro _ _
            rfl
        | B =>
          refine ⟨h1, h2, by simp [LoopSt.setPhase], ?_, ?_, ?_, ?_, ?_⟩
          · intro s hs
            simp [LoopSt.setPhase] at hs
            exact h4 s hs
          · intro s hs
            simp [LoopSt.setPhase] at hs
          · intro _
            simp [LoopSt.setPhase, hset]
          · intro _
            simp [LoopSt.setPhase, hset]
          · intro _ _
            rfl
      · -- success: the handler stores the settled summary
        have hstep : stepEv st (.finish r) =
            { st.setPhase r (.doneOk s) with inflight := false, cache := some s } := by
          simp only [stepEv]
          rw [if_pos hw, hset]
        rw [hstep]
        cases r with
        | A =>
          refine ⟨h1, by simp [LoopSt.setPhase], h3, ?_, ?_, ?_, ?_, ?_⟩
          · intro s' hs'
            simp [LoopSt.setPhase] at hs'
            simp [LoopSt.setPhase, hset, hs']
          · intro s' hs'
            simp [LoopSt.setPhase] at hs'
            exact h5 s' hs'
          · intro _
            simp [LoopSt.setPhase, hset]
          · intro _
            simp [LoopSt.setPhase, hset]
          · intro _ _
            rfl
        | B =>
          refine ⟨h1, h2, by simp [LoopSt.setPhase], ?_, ?_, ?_, ?_, ?_⟩
          · intro s' hs'
            simp [LoopSt.setPhase] at hs'
            exact h4 s' hs'
          · intro s' hs'
            simp [LoopSt.setPhase] at hs'
            simp [LoopSt.setPhase, hset, hs']
          · intro _
            simp [LoopSt.setPhase, hset]
          · intro _
            simp [LoopSt.setPhase, hset]
          · intro _ _
            rfl
    · have hstep : stepEv st (.finish r) = st := by
        simp only [stepEv]
        rw [if_neg hw]
      rw [hstep]
      exact ⟨h1, h2, h3, h4, h5, h6, h7, h8⟩

/-- `KInv` is preserved by every schedule. -/
theorem KInv_exec (evs : List Ev) (st : LoopSt) (h : KInv st) :
    KInv (execEvs evs st) := by
  induction evs generalizing st with
  | nil => exact h
  | cons ev rest ih => exact ih (stepEv st ev) (KInv_step st ev h)

/-- `PreInv` is preserved by every non-`settle` event. -/
theorem PreInv_step (st : LoopSt) (ev : Ev) (hne : ∀ v, ¬ ev = .settle v)
    (h : PreInv st) : PreInv (stepEv st ev) := by
  obtain ⟨h1, h2, h3, h4, h5, h6⟩ := h
  cases ev with
  | settle v => exact absurd rfl (hne v)
  | start r =>
    by_cases hidle : st.phase r = .idle
    · have hcache := h2
      by_cases hinf : st.inflight = true
      · have hstep : stepEv st (.start r) = st.setPhase r .waiting := by
          simp only [stepEv]
          rw [if_pos hidle, hcache, hinf]
          rfl
        have hcalls : st.calls = 1 ∧ st.inflight = true := by
          apply h6
          by_contra hcon
          push_neg at hcon
          have hfa : st.phA = .idle := by
            rcases h3 with h | h
            · exact h
            · exact absurd h hcon.1
          have hfb : st.phB = .idle := by
            rcases h4 with h | h
            · exact h
            · exact absurd h hcon.2
          exact absurd hinf (by rw [(h5 ⟨hfa, hfb⟩).2]; simp)
        rw [hstep]
        cases r with
        | A =>
          refine ⟨h1, h2, Or.inr (by simp [LoopSt.setPhase]), ?_, ?_, ?_⟩
          · simpa [LoopSt.setPhase] using h4
          · intro hcon
            simp [LoopSt.setPhase] at hcon
          · intro _
            simpa [LoopSt.setPhase] using hcalls
        | B =>
          refine ⟨h1, h2, ?_, Or.inr (by simp [LoopSt.setPhase]), ?_, ?_⟩
          · simpa [LoopSt.setPhase] using h3
          · intro hcon
            simp [LoopSt.setPhase] at hcon
          · intro _
            simpa [LoopSt.setPhase] using hcalls
      · have hinf' : st.inflight = false := by
          simpa using hinf
        have hstep : stepEv st (.start r) =
            { st.setPhase r .waiting with inflight := true, calls := st.calls + 1 } := by
          simp only [stepEv]
          rw [if_pos hidle, hcache, hinf']
          rfl
        have hboth : st.phA = .idle ∧ st.phB = .idle := by
          constructor
          · rcases h3 with h | h
            · exact h
            · exact absurd ((h6 (Or.inl h)).2) (by rw [hinf']; simp)
          · rcases h4 with h | h
            · exact h
            · exact absurd ((h6 (Or.inr h)).2) (by rw [hinf']; simp)
        have hc0 : st.calls = 0 := (h5 hboth).1
        rw [hstep]
        cases r with
        | A =>
          refine ⟨h1, h2, Or.inr (by simp [LoopSt.setPhase]), ?_, ?_, ?_⟩
          · simpa [LoopSt.setPhase] using h4
          · intro hcon
            simp [LoopSt.setPhase] at hcon
          · intro _
            simp [LoopSt.setPhase, hc0]
        | B =>
          refine ⟨h1, h2, ?_, Or.inr (by simp [LoopSt.setPhase]), ?_, ?_⟩
          · simpa [LoopSt.setPhase] using h3
          · intro hcon
            simp [LoopSt.setPhase] at hcon
          · intro _
            simp [LoopSt.setPhase, hc0]
    · have hstep : stepEv st (.start r) = st := by
        simp only [stepEv]
        rw [if_neg hidle]
      rw [hstep]
      exact ⟨h1, h2, h3, h4, h5, h6⟩
  | finish r =>
    by_cases hw : st.phase r = .waiting
    · have hstep : stepEv st (.finish r) = st := by
        simp only [stepEv]
        rw [if_pos hw, h1]
      rw [hstep]
      exact ⟨h1, h2, h3, h4, h5, h6⟩
    · have hstep : stepEv st (.finish r) = st := by
        simp only [stepEv]
        rw [if_neg hw]
      rw [hstep]
      exact ⟨h1, h2, h3, h4, h5, h6⟩

/-- `PreInv` is preserved by every settle-free schedule. -/
theorem PreInv_exec (evs : List Ev) (st : LoopSt)
    (hne : ∀ v, ¬ Ev.settle v ∈ evs) (h : PreInv st) : PreInv (execEvs evs st) := by
  induction evs generalizing st with
  | nil => exact h
  | cons ev rest ih =>
    refine ih (stepEv st ev) (fun v hv => hne v (List.mem_cons_of_mem _ hv))
      (PreInv_step st ev (fun v hv => hne v (by rw [hv]; exact List.mem_cons_self _ _)) h)

/-- No event moves a handler back to the unarrived phase. -/
theorem stepEv_phase_stable (st : LoopSt) (ev : Ev) (r : ReqId)
    (h : ¬ st.phase r = .idle) : ¬ (stepEv st ev).phase r = .idle := by
  cases ev with
  | start r' =>
    by_cases hidle : st.phase r' = .idle
    · have : ¬ r' = r := fun hc => h (hc ▸ hidle)
      simp only [stepEv]
      rw [if_pos hidle]
      rcases st.cache with _ | c
      · by_cases hinf : st.inflight = true
        · rw [hinf]
          cases r' <;> cases r <;>
            simp_all [LoopSt.setPhase, LoopSt.phase]
        · have hinf' : st.inflight = false := by simpa using hinf
          rw [hinf']
          cases r' <;> cases r <;>
            simp_all [LoopSt.setPhase, LoopSt.phase]
      · cases r' <;> cases r <;>
          simp_all [LoopSt.setPhase, LoopSt.phase]
    · simp only [stepEv]
      rw [if_neg hidle]
      exact h
  | settle v =>
    by_cases hg : st.settled = none ∧ 1 ≤ st.calls
    · simp only [stepEv]
      rw [if_pos hg]
      cases r <;> simpa [LoopSt.phase] using h
    · simp only [stepEv]
      rw [if_neg hg]
      exact h
  | finish r' =>
    by_cases hw : st.phase r' = .waiting
    · simp only [stepEv]
      rw [if_pos hw]
      rcases st.settled with _ | ⟨_ | s⟩
      · exact h
      · cases r' <;> cases r <;>
          simp_all [LoopSt.setPhase, LoopSt.phase]
      · cases r' <;> cases r <;>
          simp_all [LoopSt.setPhase, LoopSt.phase]
    · simp only [stepEv]
      rw [if_neg hw]
      exact h

/-- A `start r` event leaves handler `r` arrived. -/
theorem stepEv_start_arrived (st : LoopSt) (r : ReqId) :
    ¬ (stepEv st (.start r)).phase r = .idle := by
  by_cases hidle : st.phase r = .idle
  · simp only [stepEv]
    rw [if_pos hidle]
    rcases st.cache with _ | c
    · by_cases hinf : st.inflight = true
      · rw [hinf]
        cases r <;> simp [LoopSt.setPhase, LoopSt.phase]
      · have hinf' : st.inflight = false := by simpa using hinf
        rw [hinf']
        cases r <;> simp [LoopSt.setPhase, LoopSt.phase]
    · cases r <;> simp [LoopSt.setPhase, LoopSt.phase]
  · simp only [stepEv]
    rw [if_neg hidle]
    exact hidle

/-- Once arrived, a handler stays arrived under any schedule. -/
theorem execEvs_phase_stable (evs : List Ev) (st : LoopSt) (r : ReqId)
    (h : ¬ st.phase r = .idle) : ¬ (execEvs evs st).phase r = .idle := by
  induction evs generalizing st with
  | nil => exact h
  | cons ev rest ih => exact ih (stepEv st ev) (stepEv_phase_stable st ev r h)

/-- A schedule containing `start r` leaves handler `r` arrived. -/
theorem execEvs_started (evs : List Ev) :
    ∀ (st : LoopSt) (r : ReqId), Ev.start r ∈ evs →
      ¬ (execEvs evs st).phase r = .idle := by
  induction evs with
  | nil =>
    intro st r h
    simp at h
  | cons ev rest ih =>
    intro st r h
    rcases List.mem_cons.mp h with hev | hev
    · subst hev
      exact execEvs_phase_stable rest _ r (stepEv_start_arrived st r)
    · exact ih (stepEv st ev) r hev

end InflightLemmas

/-- Claim C3: if both handlers for the same fingerprint run their prologue
before the shared upstream promise settles (the `pre` part of the schedule
contains both `start` events and no `settle`), then over any continuation
`post` of the schedule: the pipeline is invoked at most once, both handlers
that finish successfully carry the same summary, and once both handlers
have finished — successfully or not — the in-flight registration is
deleted. -/
theorem inflight_dedup (pre post : List Ev)
    (hA : Ev.start .A ∈ pre) (hB : Ev.start .B ∈ pre)
    (hs : ∀ v, ¬ Ev.settle v ∈ pre) :
    (execEvs (pre ++ post) initLoopSt).calls ≤ 1 ∧
    (∀ sa sb, (execEvs (pre ++ post) initLoopSt).phA = .doneOk sa →
      (execEvs (pre ++ post) initLoopSt).phB = .doneOk sb → sa = sb) ∧
    ((execEvs (pre ++ post) initLoopSt).phA.isDoneB = true →
      (execEvs (pre ++ post) initLoopSt).phB.isDoneB = true →
      (execEvs (pre ++ post) initLoopSt).inflight = false) := by
  have hinit : PreInv initLoopSt := by
    refine ⟨rfl, rfl, Or.inl rfl, Or.inl rfl, fun _ => ⟨rfl, rfl⟩, fun hcon => ?_⟩
    rcases hcon with h | h <;> simp [initLoopSt] at h
  have hpre : PreInv (execEvs pre initLoopSt) := PreInv_exec pre initLoopSt hs hinit
  have hA1 : ¬ (execEvs pre initLoopSt).phase .A = .idle :=
    execEvs_started pre initLoopSt .A hA
  have hB1 : ¬ (execEvs pre initLoopSt).phase .B = .idle :=
    execEvs_started pre initLoopSt .B hB
  have hK1 : KInv (execEvs pre initLoopSt) := by
    obtain ⟨hs1, hc1, hpa, hpb, hz, ho⟩ := hpre
    have hwa : (execEvs pre initLoopSt).phA = .waiting := by
      rcases hpa with h | h
      · exact absurd h hA1
      · exact h
    have hwb : (execEvs pre initLoopSt).phB = .waiting := by
      rcases hpb with h | h
      · exact absurd h hB1
      · exact h
    have hcalls := ho (Or.inl hwa)
    refine ⟨hcalls.1, by rw [hwa]; simp, by rw [hwb]; simp, ?_, ?_, ?_, ?_, ?_⟩
    · intro s hsk
      rw [hwa] at hsk
      exact absurd hsk (by simp)
    · intro s hsk
      rw [hwb] at hsk
      exact absurd hsk (by simp)
    · intro hd
      rw [hwa] at hd
      simp [Phase.isDoneB] at hd
    · intro hd
      rw [hwb] at hd
      simp [Phase.isDoneB] at hd
    · intro hd _
      rw [hwa] at hd
      simp [Phase.isDoneB] at hd
  have hfold : execEvs (pre ++ post) initLoopSt =
      execEvs post (execEvs pre initLoopSt) := by
    unfold execEvs
    rw [List.foldl_append]
  rw [hfold]
  obtain ⟨h1, _, _, h4, h5, _, _, h8⟩ := KInv_exec post _ hK1
  refine ⟨by omega, ?_, h8⟩
  intro sa sb ha hb
  have h4' := h4 sa ha
  have h5' := h5 sb hb
  rw [h4'] at h5'
  exact Option.some.inj (Option.some.inj h5')

/-- The prologues of both concurrent requests, before the promise settles. -/
def schedPre : List Ev := [.start .A, .start .B]

/-- A continuation: the promise resolves, then both handlers finish. -/
def schedPost : List Ev := [.settle (some ['s']), .finish .A, .finish .B]

/-- Witness for claim C3 on the concrete schedule in which A registers the
pipeline call, B adopts it, the promise resolves and both finish. -/
theorem inflight_dedup_witness :
    (execEvs (schedPre ++ schedPost) initLoopSt).calls ≤ 1 :=
  (inflight_dedup schedPre schedPost (by decide) (by decide)
    (fun v hv => by simp [schedPre] at hv)).1

/-!
## Input validation, marker stripping, retry loop and fingerprints
-/

/-- Models `String.prototype.trim()`: drop whitespace from both ends. -/
def jsTrim (s : JSStr) : JSStr :=
  ((s.dropWhile isWsChar).reverse.dropWhile isWsChar).reverse

/-- The error message of the classic validation branch
(`summarizer-server.js` line 185, `part_000` lines 53 and 266). -/
def errTextRequired : JSStr := "Text is required for summarization.".toList

/-- The error message of `part_001`'s validation branch (line 195). -/
def errTextRequiredNew : JSStr := "Text is required".toList

/-- The outcome of the route prologue: either an immediate 400 response
with an error message, or proceeding into the upstream completion pipeline
with the given source text.  `callPipeline` is the only path on which an
upstream call is made. -/
inductive RouteStep
  | badRequest (error : JSStr)
  | callPipeline (source : JSStr)
deriving DecidableEq

/-- Models the `/summarize` validation of `summarizer-server.js`
(lines 184–186) and both `part_000` servers:
`if (!text || String(text).trim().length === 0) return 400 {error}`.
`none` models a missing `text` field; `!text` is also true for the empty
string. -/
def routeValidate : Option JSStr → RouteStep
  | none => .badRequest errTextRequired
  | some t =>
    if t.isEmpty || (jsTrim t).isEmpty then .badRequest errTextRequired
    else .callPipeline t

/-- Models `preprocessSource(text)` of `part_001` (lines 74–78): falsy text
becomes `''`; otherwise the text is sliced to `MAX_SOURCE_CHARS` characters
and normalized. -/
def preprocessSource (maxSourceChars : Nat) (text : JSStr) : JSStr :=
  if text.isEmpty then [] else normalizeWhitespace (text.take maxSourceChars)

/-- `preprocessSource` lifted to a possibly-missing `text` field. -/
def preprocessSourceOpt (maxSourceChars : Nat) : Option JSStr → JSStr
  | none => []
  | some t => preprocessSource maxSourceChars t

/-- Models the `/summarize` validation of `part_001` (lines 190–195):
`const pre = preprocessSource(text); if (!pre) return 400 {error}`, else the
pipeline runs on `pre`. -/
def routeValidateNew (maxSourceChars : Nat) (text : Option JSStr) : RouteStep :=
  let pre := preprocessSourceOpt maxSourceChars text
  if pre.isEmpty then .badRequest errTextRequiredNew else .callPipeline pre

/-- The characters of the regex class `[-•\d]`. -/
def isMarkerChar (c : Char) : Bool := c == '-' || c == '•' || c.isDigit

/-- Models `part_001`'s marker strip (line 119),
`.replace(/^\s*[-•\d]+\)?\.?\s*/g, '')`: despite the `g` flag, the `^`
anchor (without the `m` flag) matches only at position 0, so at most the
one leading marker is removed. -/
def stripLeadingMarker (s : JSStr) : JSStr :=
  let s1 := s.dropWhile isWsChar
  if (s1.takeWhile isMarkerChar).isEmpty then s
  else
    let s2 := s1.dropWhile isMarkerChar
    let s3 := match s2 with
      | ')' :: r => r
      | r => r
    let s4 := match s3 with
      | '.' :: r => r
      | r => r
    s4.dropWhile isWsChar

/-- Driver for a JS global regex replace with replacement `' '`: scan left
to right; at each position try the matcher (which, on success, returns the
suffix after a nonempty match); on a match emit one space and resume after
it, otherwise emit the character and advance one position.  The matcher
also receives whether the position is the string start (for `^`
alternatives).  Fuel `s.length` suffices because every step consumes at
least one input character. -/
def gsubSpaceAux (m : Bool → JSStr → Option JSStr) :
    Nat → Bool → JSStr → JSStr
  | 0, _, s => s
  | _ + 1, _, [] => []
  | fuel + 1, atStart, c :: cs =>
    match m atStart (c :: cs) with
    | some rest => ' ' :: gsubSpaceAux m fuel false rest
    | none => c :: gsubSpaceAux m fuel false cs

/-- Run a global replace-by-space over a whole string. -/
def gsubSpace (m : Bool → JSStr → Option JSStr) (s : JSStr) : JSStr :=
  gsubSpaceAux m s.length true s

/-- Matcher for `(^|\s)[-•]\s+` (`summarizer-server.js` line 126).  At the
string start the `^` alternative is tried first and, if the rest of the
pattern fails, the `\s` alternative is tried at the same position. -/
def matchBullet (atStart : Bool) (s : JSStr) : Option JSStr :=
  let core : JSStr → Option JSStr := fun t =>
    match t with
    | b :: rest =>
      if (b == '-' || b == '•') && !(rest.takeWhile isWsChar).isEmpty then
        some (rest.dropWhile isWsChar)
      else none
    | [] => none
  let wsCase : JSStr → Option JSStr := fun t =>
    match t with
    | c :: rest => if isWsChar c then core rest else none
    | [] => none
  if atStart then
    match core s with
    | some r => some r
    | none => wsCase s
  else wsCase s

/-- Matcher for `\s*\d+⟨close⟩\s+` with `close` being `)` or `.`
(`summarizer-server.js` lines 127–128). -/
def matchEnum (close : Char) (s : JSStr) : Option JSStr :=
  let s1 := s.dropWhile isWsChar
  if (s1.takeWhile Char.isDigit).isEmpty then none
  else
    match s1.dropWhile Char.isDigit with
    | c :: s3 =>
      if c == close && !(s3.takeWhile isWsChar).isEmpty then
        some (s3.dropWhile isWsChar)
      else none
    | [] => none

/-- Matcher for `(^|\s)[-•\d]+\)?\.?\s+` (`part_000` line 248), with the
same `^`-alternative handling as `matchBullet`. -/
def matchMarkerOld (atStart : Bool) (s : JSStr) : Option JSStr :=
  let core : JSStr → Option JSStr := fun t =>
    if (t.takeWhile isMarkerChar).isEmpty then none
    else
      let t2 := t.dropWhile isMarkerChar
      let t3 := match t2 with
        | ')' :: r => r
        | r => r
      let t4 := match t3 with
        | '.' :: r => r
        | r => r
      if (t4.takeWhile isWsChar).isEmpty then none
      else some (t4.dropWhile isWsChar)
  let wsCase : JSStr → Option JSStr := fun t =>
    match t with
    | c :: rest => if isWsChar c then core rest else none
    | [] => none
  if atStart then
    match core s with
    | some r => some r
    | none => wsCase s
  else wsCase s

/-- Models `postProcessOneParagraph(raw)` of `summarizer-server.js`
(lines 121–135): normalize to one line; strip bullet markers, `n)` and `n.`
enumerations everywhere; collapse whitespace and trim; cap at `maxWords`.
The default `MAX_WORDS` there is 95. -/
def postProcessOneParagraph (maxWords : Nat) (raw : JSStr) : JSStr :=
  let s0 := normalizeWhitespace raw
  let s1 := gsubSpace matchBullet s0
  let s2 := gsubSpace (fun _ s => matchEnum ')' s) s1
  let s3 := gsubSpace (fun _ s => matchEnum '.' s) s2
  hardTrimToMaxWords (normalizeWhitespace s3) maxWords

/-- Models `postProcess(raw)` of `part_001` (lines 116–122): normalize,
strip one accidental leading bullet prefix, hard-trim.  The default
`MAX_WORDS` there is 60. -/
def postProcessNew (maxWords : Nat) (raw : JSStr) : JSStr :=
  hardTrimToMaxWords (stripLeadingMarker (normalizeWhitespace raw)) maxWords

/-- Models `postProcess(raw)` of `part_000` (lines 243–255): normalize,
strip leading markers after every whitespace, hard-trim.  The default
`MAX_WORDS` there is 75. -/
def postProcessOld (maxWords : Nat) (raw : JSStr) : JSStr :=
  hardTrimToMaxWords (gsubSpace matchMarkerOld (normalizeWhitespace raw)) maxWords

/-- The upstream response of the claim C8 scenario. -/
def rawC8 : JSStr := "1. First point\n2. Second point".toList

/-- The output the claim C8 scenario expects. -/
def expectedC8 : JSStr := "First point Second point".toList

/-- What `part_001`'s marker stripping actually leaves. -/
def strippedOnceC8 : JSStr := "First point 2. Second point".toList

/-- Claim C8 is false for `part_001`'s `postProcess` (at its default
`MAX_WORDS = 60`): its `^`-anchored marker regex strips only the leading
`1. `, leaving the embedded `2.` enumeration marker in place. -/
theorem postProcess_claimC8_false :
    postProcessNew 60 rawC8 = strippedOnceC8 ∧ ¬ strippedOnceC8 = expectedC8 := by
  decide

/-- Claim C8, amended: post-processing `"1. First point\n2. Second point"`
yields `"First point Second point"` (markers removed, single line, single
spaces) for `postProcessOneParagraph` of `summarizer-server.js` (default
`MAX_WORDS = 95`) and for `postProcess` of `part_000` (default
`MAX_WORDS = 75`); `part_001`'s `postProcess` instead strips only the
leading marker (see the counterexample). -/
theorem postProcess_markers :
    postProcessOneParagraph 95 rawC8 = expectedC8 ∧
    postProcessOld 75 rawC8 = expectedC8 := by
  decide

/-- Models the expansion `while` loop of `summarizeWithOptionalExpand`
(`part_001` lines 149–163) and the identical loop of
`summarizer-server.js` (lines 195–201): while the word count is below the
minimum and the retry budget is positive, one more upstream completion call
is made (with raw output `resp k` for the k-th expansion), post-processed,
and the budget is decremented.  Returns the summary together with the
number of upstream calls made inside the loop. -/
def expandLoop (minW maxW : Nat) (resp : Nat → JSStr) :
    Nat → JSStr → Nat → JSStr × Nat
  | _, s, 0 => (s, 0)
  | k, s, retries + 1 =>
    if countWords s < minW then
      let out := expandLoop minW maxW resp (k + 1) (postProcessNew maxW (resp k)) retries
      (out.1, out.2 + 1)
    else (s, 0)

/-- Models `summarizeWithOptionalExpand(source)` of `part_001`
(lines 141–165): one first pass (`summarizeOnce` — a single upstream call
whose raw output is `firstRaw`, then `postProcess`); an early return when
`EXPANSION_RETRIES ≤ 0`; otherwise the bounded expansion loop.  Returns the
summary together with the total number of upstream completion calls. -/
def summarizeWithOptionalExpand (minW maxW retries : Nat) (firstRaw : JSStr)
    (resp : Nat → JSStr) : JSStr × Nat :=
  let s := postProcessNew maxW firstRaw
  if retries = 0 then (s, 1)
  else
    let out := expandLoop minW maxW resp 0 s retries
    (out.1, out.2 + 1)

/-- The expansion loop makes at most `retries` upstream calls: the explicit
budget counter strictly decreases on every iteration. -/
theorem expandLoop_calls_le (minW maxW : Nat) (resp : Nat → JSStr) :
    ∀ (r k : Nat) (s : JSStr), (expandLoop minW maxW resp k s r).2 ≤ r := by
  intro r
  induction r with
  | zero =>
    intro k s
    simp [expandLoop]
  | succ r ih =>
    intro k s
    by_cases h : countWords s < minW
    · show (if countWords s < minW then _ else _ : JSStr × Nat).2 ≤ r + 1
      rw [if_pos h]
      have := ih (k + 1) (postProcessNew maxW (resp k))
      simpa using Nat.add_le_add_right this 1
    · show (if countWords s < minW then _ else _ : JSStr × Nat).2 ≤ r + 1
      rw [if_neg h]
      simp

/-- Claim C9: for every input and every sequence of upstream responses, the
retry loop terminates (it is structurally recursive on the explicit retry
budget) and the total number of upstream completion calls of one logical
request is at most `1 + EXPANSION_RETRIES`: one first pass plus at most
`EXPANSION_RETRIES` expansion passes. -/
theorem retry_loop_bounded (minW maxW retries : Nat) (firstRaw : JSStr)
    (resp : Nat → JSStr) :
    (summarizeWithOptionalExpand minW maxW retries firstRaw resp).2 ≤ 1 + retries := by
  unfold summarizeWithOptionalExpand
  by_cases h : retries = 0
  · rw [if_pos h]
    omega
  · rw [if_neg h]
    have := expandLoop_calls_le minW maxW resp retries 0 (postProcessNew maxW firstRaw)
    simp only
    omega

/-- Every field of a fully-whitespace string splits to the empty field. -/
theorem splitOnP_all_sep (p : Char → Bool) :
    ∀ (l : JSStr), (∀ c ∈ l, p c = true) → ∀ x ∈ List.splitOnP p l, x = [] := by
  intro l
  induction l with
  | nil =>
    intro _ x hx
    simpa using hx
  | cons a l ih =>
    intro h x hx
    rw [List.splitOnP_cons, if_pos (h a (List.mem_cons_self _ _))] at hx
    rcases List.mem_cons.mp hx with hx | hx
    · exact hx
    · exact ih (fun c hc => h c (List.mem_cons_of_mem _ hc)) x hx

/-- Claim C7: a missing, empty or whitespace-only `text` field is rejected
with a BadRequest-class response carrying a nonempty error message, and the
upstream pipeline is not invoked (`callPipeline` is the only outcome that
reaches the completion client); this holds for the classic validation of
`summarizer-server.js`/`part_000` and for `part_001`'s
`preprocessSource`-based validation, for every configured truncation
length. -/
theorem emptyText_badRequest (text : Option JSStr)
    (h : text = none ∨ ∃ t, text = some t ∧ ∀ c ∈ t, isWsChar c = true) :
    routeValidate text = .badRequest errTextRequired ∧
    (∀ maxChars, routeValidateNew maxChars text = .badRequest errTextRequiredNew) ∧
    ¬ errTextRequired = [] ∧ ¬ errTextRequiredNew = [] := by
  have hws_core : ∀ (t : JSStr), (∀ c ∈ t, isWsChar c = true) →
      routeValidate (some t) = .badRequest errTextRequired := by
    intro t ht
    simp only [routeValidate]
    have htrim : jsTrim t = [] := by
      unfold jsTrim
      have h1 : t.dropWhile isWsChar = [] := by
        rw [List.dropWhile_eq_nil_iff]
        intro c hc
        exact ht c hc
      rw [h1]
      rfl
    rw [htrim]
    simp
  have hnorm : ∀ (t : JSStr) (n : Nat), (∀ c ∈ t, isWsChar c = true) →
      preprocessSource n t = [] := by
    intro t n ht
    unfold preprocessSource
    by_cases he : t.isEmpty
    · rw [if_pos he]
    · rw [if_neg he]
      unfold normalizeWhitespace
      have hsw : splitWsFilter (t.take n) = [] := by
        unfold splitWsFilter
        rw [List.filter_eq_nil_iff]
        intro w hw
        have hwe : w = [] :=
          splitOnP_all_sep isWsChar (t.take n)
            (fun c hc => ht c (List.take_subset n t hc)) w hw
        simp [hwe]
      rw [hsw]
      rfl
  rcases h with h | ⟨t, rfl, ht⟩
  · subst h
    exact ⟨rfl, fun _ => rfl, by decide, by decide⟩
  · refine ⟨hws_core t ht, ?_, by decide, by decide⟩
    intro maxChars
    simp only [routeValidateNew, preprocessSourceOpt]
    rw [hnorm t maxChars ht]
    rfl

/-- A concrete whitespace-only request body for the C7 witness. -/
def wsOnlyText : JSStr := "   ".toList

/-- Witness for claim C7 at the concrete whitespace-only input. -/
theorem emptyText_badRequest_witness :
    routeValidate (some wsOnlyText) = .badRequest errTextRequired ∧
    (∀ maxChars, routeValidateNew maxChars (some wsOnlyText) =
      .badRequest errTextRequiredNew) ∧
    ¬ errTextRequired = [] ∧ ¬ errTextRequiredNew = [] :=
  emptyText_badRequest (some wsOnlyText)
    (Or.inr ⟨wsOnlyText, rfl, by decide⟩)

/-- Models the input truncation of `part_000`'s cached server (line 270):
`if (text.length > INPUT_MAX_CHARS) text = text.slice(0, INPUT_MAX_CHARS)`. -/
def truncateInput (maxChars : Nat) (text : JSStr) : JSStr :=
  if maxChars < text.length then text.take maxChars else text

/-- The decimal digits of a number as interpolated by a JS template
literal. -/
def natDigits (n : Nat) : JSStr := (Nat.repr n).toList

/-- Models the pre-hash cache key of `part_000`'s cached server (line 272):
the string `` `${SUMMARY_MODEL}|${MIN_WORDS}|${MAX_WORDS}|${text}` `` (with
`text` already truncated) that is fed to `sha1`.  `sha1` is a fixed
deterministic digest, so fingerprint equality is modelled on its
pre-image. -/
def fingerprintKeyOld (model : JSStr) (minW maxW maxChars : Nat)
    (text : JSStr) : JSStr :=
  model ++ '|' :: natDigits minW ++ '|' :: natDigits maxW ++ '|' ::
    truncateInput maxChars text

/-- Models the pre-hash cache key of `part_001` (line 197): `sha1(pre)`
with `pre = preprocessSource(text)`.  The model identifier and the
word-bound tunables, although in scope at the call site, are **not** part
of the key; the unused parameters document the tunables of the logical
request. -/
def fingerprintKeyNew (_model : JSStr) (_minW _maxW : Nat)
    (maxSourceChars : Nat) (text : JSStr) : JSStr :=
  preprocessSource maxSourceChars text

/-- The default model identifier of the cached servers. -/
def modelEx : JSStr := "openai/gpt-4o-mini".toList

/-- A concrete request text for the fingerprint claims. -/
def textC2 : JSStr := "hello world".toList

/-- Claim C2 is false as stated: in the `part_001` server two logical
requests that differ in a word-bound tunable (minimum words 45 versus 50,
the default versus a reconfigured deployment) produce the *same*
fingerprint for the same text, so a cached summary produced under one
constraint configuration is returned for a request made under the other. -/
theorem fingerprint_claimC2_false :
    fingerprintKeyNew modelEx 45 60 1400 textC2 =
      fingerprintKeyNew modelEx 50 60 1400 textC2 ∧
    ¬ (45 : Nat) = 50 :=
  ⟨rfl, by decide⟩

/-- Claim C2, amended: both cache keys are deterministic — identical
tunables and identical (truncated/normalized) input always yield the same
fingerprint.  The key of `part_000`'s cached server embeds the model and
both word bounds, and in particular the default configurations with
different word bounds get distinct keys; but the key of `part_001` is
computed from the truncated normalized input alone, so it is invariant
under every change of model or word bounds and cached summaries can cross
constraint configurations there. -/
theorem fingerprint_determinism :
    (∀ (model model' : JSStr) (minW minW' maxW maxW' n n' : Nat) (t t' : JSStr),
      model = model' → minW = minW' → maxW = maxW' →
      truncateInput n t = truncateInput n' t' →
      fingerprintKeyOld model minW maxW n t =
        fingerprintKeyOld model' minW' maxW' n' t') ∧
    (∀ (model model' : JSStr) (minW minW' maxW maxW' n n' : Nat) (t t' : JSStr),
      preprocessSource n t = preprocessSource n' t' →
      fingerprintKeyNew model minW maxW n t =
        fingerprintKeyNew model' minW' maxW' n' t') ∧
    ¬ fingerprintKeyOld modelEx 45 60 1400 textC2 =
      fingerprintKeyOld modelEx 50 60 1400 textC2 := by
  refine ⟨?_, ?_, ?_⟩
  · intro model model' minW minW' maxW maxW' n n' t t' h1 h2 h3 h4
    subst h1
    subst h2
    subst h3
    unfold fingerprintKeyOld
    rw [h4]
  · intro model model' minW minW' maxW maxW' n n' t t' h
    unfold fingerprintKeyNew
    exact h
  · decide

/-- Witness for the amended claim C2: the `part_000` key construction is
deterministic at the concrete default configuration. -/
theorem fingerprint_determinism_witness :
    fingerprintKeyOld modelEx 45 60 1400 textC2 =
      fingerprintKeyOld modelEx 45 60 1400 textC2 :=
  fingerprint_determinism.1 modelEx modelEx 45 45 60 60 1400 1400 textC2 textC2
    rfl rfl rfl rfl

/-- Claim C10: only the first `MAX_SOURCE_CHARS` (resp. `INPUT_MAX_CHARS`)
characters of the request text influence the result: two texts agreeing on
that prefix get the identical normalized pipeline source and the identical
cache key, in `part_001` (`preprocessSource`/`sha1(pre)`) as well as in
`part_000`'s cached server (`slice` + composite key) — so the two requests
are the same logical request: the later one is served from the cache or
coalesced onto the same in-flight call and receives the same summary. -/
theorem truncation_agreement (n : Nat) (t1 t2 : JSStr)
    (h : t1.take n = t2.take n) :
    preprocessSource n t1 = preprocessSource n t2 ∧
    (∀ (model : JSStr) (minW maxW : Nat),
      fingerprintKeyNew model minW maxW n t1 =
        fingerprintKeyNew model minW maxW n t2) ∧
    truncateInput n t1 = truncateInput n t2 ∧
    (∀ (model : JSStr) (minW maxW : Nat),
      fingerprintKeyOld model minW maxW n t1 =
        fingerprintKeyOld model minW maxW n t2) := by
  have hpre : preprocessSource n t1 = preprocessSource n t2 := by
    unfold preprocessSource
    by_cases he1 : t1.isEmpty
    · rw [if_pos he1]
      by_cases he2 : t2.isEmpty
      · rw [if_pos he2]
      · rw [if_neg he2]
        have ht1 : t1 = [] := List.isEmpty_iff.mp he1
        have : t2.take n = [] := by
          rw [← h, ht1]
          simp
        rw [this]
        rfl
    · rw [if_neg he1]
      by_cases he2 : t2.isEmpty
      · rw [if_pos he2]
        have ht2 : t2 = [] := List.isEmpty_iff.mp he2
        have : t1.take n = [] := by
          rw [h, ht2]
          simp
        rw [this]
        rfl
      · rw [if_neg he2, h]
  have htrunc : truncateInput n t1 = truncateInput n t2 := by
    unfold truncateInput
    by_cases h1 : n < t1.length
    · rw [if_pos h1]
      by_cases h2 : n < t2.length
      · rw [if_pos h2, h]
      · rw [if_neg h2]
        rw [h]
        exact List.take_of_length_le (by omega)
    · rw [if_neg h1]
      by_cases h2 : n < t2.length
      · rw [if_pos h2, ← h]
        exact (List.take_of_length_le (by omega)).symm
      · rw [if_neg h2]
        have e1 : t1.take n = t1 := List.take_of_length_le (by omega)
        have e2 : t2.take n = t2 := List.take_of_length_le (by omega)
        rw [← e1, ← e2, h]
  refine ⟨hpre, ?_, htrunc, ?_⟩
  · intro model minW maxW
    unfold fingerprintKeyNew
    exact hpre
  · intro model minW maxW
    unfold fingerprintKeyOld
    rw [htrunc]

/-- Two concrete texts agreeing on their first five characters. -/
def textC10a : JSStr := "hello world".toList

/-- A second text with the same five-character prefix but a different
remainder. -/
def textC10b : JSStr := "hello there, reader".toList

/-- Witness for claim C10 at a concrete truncation length of 5. -/
theorem truncation_agreement_witness :
    preprocessSource 5 textC10a = preprocessSource 5 textC10b :=
  (truncation_agreement 5 textC10a textC10b (by decide)).1

end KnotShorts
